import Mathlib

/-!
# Verification of the nodlite graph store (`nodlite.py`)

A shallow embedding of the nodlite directed-graph store: a SQLite-backed
node/edge schema driven through a single worker thread that drains a FIFO
command queue.  The embedding models

* the attribute codec (`encode`/`decode`, `zip_encode`/`zip_decode`):
  the pickle serializer and the zlib compressor are external libraries, so
  they are modelled by concrete executable codecs with the same
  compositional structure (a tagged serializer for the closed attribute
  value type, and a lossless run-length byte compressor);
* the SQL statements issued by `Graph`, executed over an explicit store
  state (`nodes` and `edges` tables in rowid order), including SQLite's
  parameter-arity check and the `ON CONFLICT IGNORE` / `REPLACE` semantics;
* the `Graph` operations as compositions of those statements;
* the worker loop of `GraphMultithread.run`, which executes queued commands
  in FIFO order and (as in the source) has no exception handler around
  `cursor.execute`.
-/

namespace Nodlite

/-! ## Attribute values

The closed type of attribute values: nulls, booleans, numbers, strings
(byte strings, as lists of numbers), sequences, and string-keyed mappings.
-/

inductive Value where
  | null : Value
  | bool (b : Bool) : Value
  | num (n : Int) : Value
  | str (s : List Nat) : Value
  | seq (xs : List Value) : Value
  | dict (kvs : List (List Nat × Value)) : Value

/-! ## Serializer (model of `pickle.dumps` / `pickle.loads`)

`pickle` is an external library; the repository only relies on it
round-tripping nested primitive values.  It is modelled by a concrete
tagged serializer over `List Nat` with a fuel-indexed parser.
-/

/-- Self-delimiting encoding of a natural number: `n` ones then a zero. -/
def unary : Nat → List Nat
  | 0 => [0]
  | n + 1 => 1 :: unary n

/-- Parse a `unary`-encoded natural number, returning it and the rest. -/
def parseU : List Nat → Nat × List Nat
  | [] => (0, [])
  | 0 :: r => (0, r)
  | (_ + 1) :: r => let p := parseU r; (p.1 + 1, p.2)

/-- Parse `k` consecutive `unary`-encoded numbers. -/
def parseUs : Nat → List Nat → List Nat × List Nat
  | 0, l => ([], l)
  | k + 1, l =>
    let p := parseU l
    let q := parseUs k p.2
    (p.1 :: q.1, q.2)

/-- Length-prefixed encoding of a byte string. -/
def dumpBytes (s : List Nat) : List Nat :=
  unary s.length ++ s.flatMap unary

/-- Parse a `dumpBytes`-encoded byte string. -/
def parseBytes (l : List Nat) : List Nat × List Nat :=
  let p := parseU l
  parseUs p.1 p.2

/-- Sign-and-magnitude encoding of an integer. -/
def dumpInt (n : Int) : List Nat :=
  (if n < 0 then 1 else 0) :: unary n.natAbs

/-- Parse a `dumpInt`-encoded integer. -/
def parseInt : List Nat → Int × List Nat
  | [] => (0, [])
  | sgn :: r =>
    let p := parseU r
    ((if sgn = 1 then -(p.1 : Int) else (p.1 : Int)), p.2)

mutual

/-- Serialize a value: a tag byte followed by the payload; sequences and
mappings are emitted element by element and closed with the marker `6`. -/
def dumps : Value → List Nat
  | .null => [0]
  | .bool b => [1, cond b 1 0]
  | .num n => 2 :: dumpInt n
  | .str s => 3 :: dumpBytes s
  | .seq xs => 4 :: dumpsSeq xs
  | .dict kvs => 5 :: dumpsPairs kvs

/-- Serialize the elements of a sequence, ending with the marker `6`. -/
def dumpsSeq : List Value → List Nat
  | [] => [6]
  | v :: vs => dumps v ++ dumpsSeq vs

/-- Serialize the entries of a mapping, ending with the marker `6`. -/
def dumpsPairs : List (List Nat × Value) → List Nat
  | [] => [6]
  | (k, v) :: kvs => dumpBytes k ++ dumps v ++ dumpsPairs kvs

end

mutual

/-- Fuel-indexed parser for a single serialized value. -/
def parseVal : Nat → List Nat → Option (Value × List Nat)
  | 0, _ => none
  | f + 1, l =>
    match l with
    | 0 :: r => some (.null, r)
    | 1 :: b :: r => some (.bool (b == 1), r)
    | 2 :: r => let p := parseInt r; some (.num p.1, p.2)
    | 3 :: r => let p := parseBytes r; some (.str p.1, p.2)
    | 4 :: r => (parseItems f r).map (fun q => (Value.seq q.1, q.2))
    | 5 :: r => (parsePairs f r).map (fun q => (Value.dict q.1, q.2))
    | _ => none

/-- Parse serialized sequence elements up to the closing marker `6`. -/
def parseItems : Nat → List Nat → Option (List Value × List Nat)
  | 0, _ => none
  | f + 1, l =>
    if l.head? = some 6 then some ([], l.tail)
    else
      match parseVal f l with
      | none => none
      | some p =>
        match parseItems f p.2 with
        | none => none
        | some q => some (p.1 :: q.1, q.2)

/-- Parse serialized mapping entries up to the closing marker `6`. -/
def parsePairs : Nat → List Nat → Option (List (List Nat × Value) × List Nat)
  | 0, _ => none
  | f + 1, l =>
    if l.head? = some 6 then some ([], l.tail)
    else
      let pb := parseBytes l
      match parseVal f pb.2 with
      | none => none
      | some p =>
        match parsePairs f p.2 with
        | none => none
        | some q => some ((pb.1, p.1) :: q.1, q.2)

end

mutual

/-- Fuel needed to parse a serialized value. -/
def fsize : Value → Nat
  | .null => 1
  | .bool _ => 1
  | .num _ => 1
  | .str _ => 1
  | .seq xs => 1 + isize xs
  | .dict kvs => 1 + psize kvs

/-- Fuel needed to parse serialized sequence elements. -/
def isize : List Value → Nat
  | [] => 1
  | v :: vs => fsize v + isize vs

/-- Fuel needed to parse serialized mapping entries. -/
def psize : List (List Nat × Value) → Nat
  | [] => 1
  | (_, v) :: kvs => fsize v + psize kvs

end

/-- Deserialize: run the parser with fuel bounded by the input length and
require that the whole input is consumed. -/
def loads (bs : List Nat) : Option Value :=
  match parseVal bs.length bs with
  | some (v, []) => some v
  | _ => none

/-- Model of `nodlite.encode`: serialize an attribute value to a binary payload
(the `sqlite3.Binary` wrapper is the identity on the byte content). -/
def encode (obj : Value) : List Nat := dumps obj

/-- Model of `nodlite.decode`: deserialize a payload retrieved from the store. -/
def decode (obj : List Nat) : Option Value := loads obj

/-! ## Compressor (model of `zlib.compress` / `zlib.decompress`)

`zlib` is an external library; the repository only relies on it being a
lossless general-purpose byte compressor.  It is modelled by an executable
run-length codec over `List Nat`.
-/

/-- Run-length compress: each maximal run of a byte `b` of length `k + 1`
becomes `unary k ++ [b]`. -/
def compress : List Nat → List Nat
  | [] => []
  | b :: bs =>
    unary (bs.takeWhile (· == b)).length ++ b :: compress (bs.dropWhile (· == b))
termination_by l => l.length
decreasing_by
  simp only [List.length_cons]
  exact Nat.lt_succ_of_le (List.Sublist.length_le (List.dropWhile_sublist _))

/-- Fuel-indexed run-length decompression. -/
def decompressF : Nat → List Nat → List Nat
  | 0, _ => []
  | f + 1, l =>
    match parseU l with
    | (_, []) => []
    | (n, b :: r2) => List.replicate (n + 1) b ++ decompressF f r2

/-- Run-length decompress, with fuel bounded by the input length. -/
def decompress (l : List Nat) : List Nat := decompressF l.length l

/-- Model of `nodlite.zip_encode`: serialize, then compress. -/
def zip_encode (obj : Value) : List Nat := compress (dumps obj)

/-- Model of `nodlite.zip_decode`: decompress, then deserialize. -/
def zip_decode (obj : List Nat) : Option Value := loads (decompress obj)

/-! ### Round-trip lemmas for the codec -/

theorem parseU_unary (n : Nat) (r : List Nat) : parseU (unary n ++ r) = (n, r) := by
  induction n with
  | zero => simp [unary, parseU]
  | succ n ih => simp [unary, parseU, ih]

theorem parseUs_flatMap (s : List Nat) (r : List Nat) :
    parseUs s.length (s.flatMap unary ++ r) = (s, r) := by
  induction s with
  | nil => simp [parseUs]
  | cons a t ih => simp [parseUs, List.flatMap_cons, List.append_assoc, parseU_unary, ih]

theorem parseBytes_dumpBytes (s : List Nat) (r : List Nat) :
    parseBytes (dumpBytes s ++ r) = (s, r) := by
  simp [parseBytes, dumpBytes, List.append_assoc, parseU_unary, parseUs_flatMap]

theorem parseInt_dumpInt (n : Int) (r : List Nat) :
    parseInt (dumpInt n ++ r) = (n, r) := by
  by_cases h : n < 0
  · simp only [dumpInt, if_pos h, List.cons_append, parseInt, parseU_unary]
    rw [if_pos trivial]
    simp only [Prod.mk.injEq]
    exact ⟨by omega, by simp⟩
  · simp only [dumpInt, if_neg h, List.cons_append, parseInt, parseU_unary]
    rw [if_neg (by omega : ¬(0 = 1))]
    simp only [Prod.mk.injEq]
    exact ⟨by omega, by simp⟩

theorem fsize_pos (v : Value) : 1 ≤ fsize v := by
  cases v <;> simp [fsize]

theorem isize_pos (xs : List Value) : 1 ≤ isize xs := by
  cases xs with
  | nil => simp [isize]
  | cons v vs => have := fsize_pos v; simp only [isize]; omega

theorem psize_pos (kvs : List (List Nat × Value)) : 1 ≤ psize kvs := by
  cases kvs with
  | nil => simp [psize]
  | cons kv kvs =>
    obtain ⟨k, v⟩ := kv
    have := fsize_pos v; simp only [psize]; omega

theorem dumps_head (v : Value) : ∃ t tl, dumps v = t :: tl ∧ t ≤ 5 := by
  cases v <;> simp [dumps]

theorem unary_head (n : Nat) : ∃ a tl, unary n = a :: tl ∧ a ≤ 1 := by
  cases n <;> simp [unary]

theorem dumpBytes_head (s : List Nat) : ∃ a tl, dumpBytes s = a :: tl ∧ a ≤ 1 := by
  obtain ⟨a, tl, h, ha⟩ := unary_head s.length
  exact ⟨a, tl ++ s.flatMap unary, by simp [dumpBytes, h], ha⟩

theorem parse_dumps_all (f : Nat) :
    (∀ v r, fsize v ≤ f → parseVal f (dumps v ++ r) = some (v, r)) ∧
    (∀ xs r, isize xs ≤ f → parseItems f (dumpsSeq xs ++ r) = some (xs, r)) ∧
    (∀ kvs r, psize kvs ≤ f → parsePairs f (dumpsPairs kvs ++ r) = some (kvs, r)) := by
  induction f with
  | zero =>
    refine ⟨fun v r h => absurd h ?_, fun xs r h => absurd h ?_, fun kvs r h => absurd h ?_⟩
    · have := fsize_pos v; omega
    · have := isize_pos xs; omega
    · have := psize_pos kvs; omega
  | succ f ih =>
    obtain ⟨ihV, ihI, ihP⟩ := ih
    refine ⟨?_, ?_, ?_⟩
    · intro v r h
      cases v with
      | null => simp [dumps, parseVal]
      | bool b => cases b <;> simp [dumps, parseVal]
      | num n => simp [dumps, parseVal, parseInt_dumpInt]
      | str s => simp [dumps, parseVal, parseBytes_dumpBytes]
      | seq xs =>
        have hx : isize xs ≤ f := by
          simp only [fsize] at h; omega
        simp [dumps, parseVal, ihI xs r hx]
      | dict kvs =>
        have hx : psize kvs ≤ f := by
          simp only [fsize] at h; omega
        simp [dumps, parseVal, ihP kvs r hx]
    · intro xs r h
      cases xs with
      | nil => simp [dumpsSeq, parseItems]
      | cons v vs =>
        have hv : fsize v ≤ f := by
          have := isize_pos vs; simp only [isize] at h; omega
        have hvs : isize vs ≤ f := by
          have := fsize_pos v; simp only [isize] at h; omega
        obtain ⟨t, tl, ht, ht5⟩ := dumps_head v
        have hne : (dumps v ++ (dumpsSeq vs ++ r)).head? ≠ some 6 := by
          rw [ht]
          simp
          omega
        have h1 : parseVal f (dumps v ++ (dumpsSeq vs ++ r)) = some (v, dumpsSeq vs ++ r) :=
          ihV v _ hv
        have h2 : parseItems f (dumpsSeq vs ++ r) = some (vs, r) := ihI vs r hvs
        simp only [parseItems, dumpsSeq, List.append_assoc, h1, h2]
        rw [if_neg hne]
    · intro kvs r h
      cases kvs with
      | nil => simp [dumpsPairs, parsePairs]
      | cons kv kvs =>
        obtain ⟨k, v⟩ := kv
        have hv : fsize v ≤ f := by
          have := psize_pos kvs; simp only [psize] at h; omega
        have hkvs : psize kvs ≤ f := by
          have := fsize_pos v; simp only [psize] at h; omega
        obtain ⟨a, tl, ha, ha1⟩ := dumpBytes_head k
        have hne : (dumpBytes k ++ (dumps v ++ (dumpsPairs kvs ++ r))).head? ≠ some 6 := by
          rw [ha]
          simp
          omega
        have hb : parseBytes (dumpBytes k ++ (dumps v ++ (dumpsPairs kvs ++ r))) =
            (k, dumps v ++ (dumpsPairs kvs ++ r)) := parseBytes_dumpBytes _ _
        have h1 : parseVal f (dumps v ++ (dumpsPairs kvs ++ r)) = some (v, dumpsPairs kvs ++ r) :=
          ihV v _ hv
        have h2 : parsePairs f (dumpsPairs kvs ++ r) = some (kvs, r) := ihP kvs r hkvs
        simp only [parsePairs, dumpsPairs, List.append_assoc, hb, h1, h2]
        rw [if_neg hne]

mutual

theorem fsize_le_dumps : ∀ v : Value, fsize v ≤ (dumps v).length
  | .null => by simp [fsize, dumps]
  | .bool _ => by simp [fsize, dumps]
  | .num _ => by simp [fsize, dumps]
  | .str _ => by simp [fsize, dumps]
  | .seq xs => by
    have h := isize_le_dumpsSeq xs
    simp only [fsize, dumps, List.length_cons]
    omega
  | .dict kvs => by
    have h := psize_le_dumpsPairs kvs
    simp only [fsize, dumps, List.length_cons]
    omega

theorem isize_le_dumpsSeq : ∀ xs : List Value, isize xs ≤ (dumpsSeq xs).length
  | [] => by simp [isize, dumpsSeq]
  | v :: vs => by
    have h1 := fsize_le_dumps v
    have h2 := isize_le_dumpsSeq vs
    simp only [isize, dumpsSeq, List.length_append]
    omega

theorem psize_le_dumpsPairs : ∀ kvs : List (List Nat × Value), psize kvs ≤ (dumpsPairs kvs).length
  | [] => by simp [psize, dumpsPairs]
  | (k, v) :: kvs => by
    have h1 := fsize_le_dumps v
    have h2 := psize_le_dumpsPairs kvs
    simp only [psize, dumpsPairs, List.length_append]
    omega

end

/-- The serializer round-trips: parsing its output returns the value. -/
theorem loads_dumps (v : Value) : loads (dumps v) = some v := by
  have h := (parse_dumps_all (dumps v).length).1 v [] (fsize_le_dumps v)
  rw [List.append_nil] at h
  simp [loads, h]

theorem length_dropWhile_le' (p : Nat → Bool) (l : List Nat) :
    (l.dropWhile p).length ≤ l.length :=
  List.Sublist.length_le (List.dropWhile_sublist _)

theorem takeWhile_eq_replicate (b : Nat) (bs : List Nat) :
    bs.takeWhile (· == b) = List.replicate (bs.takeWhile (· == b)).length b := by
  apply List.eq_replicate_of_mem
  intro x hx
  have := List.mem_takeWhile_imp hx
  simpa using this

theorem length_le_compress (f : Nat) : ∀ l : List Nat, l.length ≤ f → l.length ≤ (compress l).length := by
  induction f with
  | zero =>
    intro l h
    omega
  | succ f ih =>
    intro l h
    cases l with
    | nil => simp
    | cons b bs =>
      rw [compress]
      have hsplit : (bs.takeWhile (· == b)).length + (bs.dropWhile (· == b)).length = bs.length := by
        rw [← List.length_append, List.takeWhile_append_dropWhile]
      have hrest : (bs.dropWhile (· == b)).length ≤ f := by
        have := length_dropWhile_le' (· == b) bs
        simp at h
        omega
      have := ih (bs.dropWhile (· == b)) hrest
      simp only [List.length_append, List.length_cons]
      have hu : (unary (bs.takeWhile (· == b)).length).length = (bs.takeWhile (· == b)).length + 1 := by
        generalize (bs.takeWhile (· == b)).length = k
        induction k with
        | zero => simp [unary]
        | succ k ihk => simp [unary]; omega
      omega

theorem decompressF_compress (f : Nat) :
    ∀ l : List Nat, l.length ≤ f → decompressF f (compress l) = l := by
  induction f with
  | zero =>
    intro l h
    have : l = [] := List.length_eq_zero.mp (by omega)
    subst this
    simp [compress, decompressF]
  | succ f ih =>
    intro l h
    cases l with
    | nil => simp [compress, decompressF, parseU]
    | cons b bs =>
      rw [compress]
      have hrest : (bs.dropWhile (· == b)).length ≤ f := by
        have := length_dropWhile_le' (· == b) bs
        simp at h
        omega
      simp only [decompressF, parseU_unary]
      rw [ih _ hrest]
      have : List.replicate ((bs.takeWhile (· == b)).length + 1) b =
          b :: bs.takeWhile (· == b) := by
        rw [List.replicate_succ, ← takeWhile_eq_replicate]
      rw [this]
      simp [List.takeWhile_append_dropWhile]

/-- The compressor is lossless. -/
theorem decompress_compress (l : List Nat) : decompress (compress l) = l :=
  decompressF_compress (compress l).length l (length_le_compress l.length l le_rfl)

/-! ## Store state

SQLite values bound as statement parameters or stored in columns. -/

inductive Val where
  | text (s : String) : Val
  | intv (n : Int) : Val
  | blob (b : List Nat) : Val
deriving DecidableEq, Repr

/-- The store state: the `nodes` and `edges` tables, each in rowid
(physical insertion) order.  `nodes` rows are `(key, attributes)` with a
nullable attributes column; `edges` rows are `(source, target)`. -/
structure GState where
  nodes : List (Val × Option Val)
  edges : List (Val × Val)
deriving DecidableEq, Repr

/-- The empty store (the state right after `_create_tables` on a new file). -/
def emptyState : GState := ⟨[], []⟩

/-! ## The SQL statements issued by `Graph`

Each parameterized statement appearing in `nodlite.py`, with its
placeholder count.  `insNodesBatch`/`insEdgesBatch` are the dynamically
built `VALUES (?), (?), ...` statements of `add_edges_from`. -/

inductive SQL where
  | insNodeIgnore      -- INSERT OR IGNORE INTO "nodes" (key) VALUES (?)
  | replaceNodeAttrs   -- REPLACE INTO "nodes" (key, attributes) VALUES (?,?)
  | replaceNodeKeyOnly -- REPLACE INTO "nodes" (key) VALUES (?)
  | insNodesPair       -- INSERT OR IGNORE INTO "nodes" (key) VALUES (?), (?)
  | insNodesBatch (n : Nat)
  | insEdge            -- INSERT OR IGNORE INTO "edges" (source, target) VALUES (?, ?)
  | insEdgesBatch (n : Nat)
  | delEdgesBySource   -- DELETE FROM "edges" WHERE source = ?
  | delEdgesByTarget   -- DELETE FROM "edges" WHERE target = ?
  | delEdgesSrcOrTgt   -- DELETE FROM "edges" WHERE source = ? or target = ?
  | delEdgesPair       -- DELETE FROM "edges" WHERE source = ? and target = ?
  | delNode            -- DELETE FROM "nodes" WHERE key = ?
  | selNEdges          -- SELECT n_edges FROM "count_edges"
deriving DecidableEq, Repr

/-- Number of `?` placeholders of each statement. -/
def arity : SQL → Nat
  | .insNodeIgnore => 1
  | .replaceNodeAttrs => 2
  | .replaceNodeKeyOnly => 1
  | .insNodesPair => 2
  | .insNodesBatch n => n
  | .insEdge => 2
  | .insEdgesBatch n => 2 * n
  | .delEdgesBySource => 1
  | .delEdgesByTarget => 1
  | .delEdgesSrcOrTgt => 2
  | .delEdgesPair => 2
  | .delNode => 1
  | .selNEdges => 0

/-- Insert a key into `nodes` if absent (the `nodes.key` column is UNIQUE
and the statement is `INSERT OR IGNORE`); a fresh row gets the next rowid,
i.e. is appended. -/
def insKey (s : GState) (k : Val) : GState :=
  if s.nodes.any (fun r => r.1 == k) then s
  else { s with nodes := s.nodes ++ [(k, none)] }

/-- Semantics of `REPLACE INTO "nodes"`: delete any row conflicting on the UNIQUE key,
then insert the new row with a fresh rowid (at the end). -/
def replaceRow (s : GState) (k : Val) (a : Option Val) : GState :=
  { s with nodes := s.nodes.filter (fun r => !(r.1 == k)) ++ [(k, a)] }

/-- Insert an edge if the ordered pair is absent (`UNIQUE(source, target)
ON CONFLICT IGNORE` plus `INSERT OR IGNORE`). -/
def insEdgeV (s : GState) (p : Val × Val) : GState :=
  if s.edges.contains p then s
  else { s with edges := s.edges ++ [p] }

/-- Group a flat parameter list into consecutive pairs. -/
def pairUp : List Val → List (Val × Val)
  | a :: b :: r => (a, b) :: pairUp r
  | _ => []

/-- Execute one statement against the store.  As in `sqlite3`, supplying a
number of bind parameters different from the placeholder count is an
error (`none`); the worker has no handler for it.  Returns the new state
and the result rows. -/
def runSQL (st : SQL) (args : List Val) (s : GState) : Option (GState × List (List Val)) :=
  if args.length ≠ arity st then none
  else
    match st, args with
    | .insNodeIgnore, [k] => some (insKey s k, [])
    | .replaceNodeAttrs, [k, a] => some (replaceRow s k (some a), [])
    | .replaceNodeKeyOnly, [k] => some (replaceRow s k none, [])
    | .insNodesPair, [a, b] => some (insKey (insKey s a) b, [])
    | .insNodesBatch _, ks => some (ks.foldl insKey s, [])
    | .insEdge, [a, b] => some (insEdgeV s (a, b), [])
    | .insEdgesBatch _, vs => some ((pairUp vs).foldl insEdgeV s, [])
    | .delEdgesBySource, [u] =>
      some ({ s with edges := s.edges.filter (fun e => !(e.1 == u)) }, [])
    | .delEdgesByTarget, [u] =>
      some ({ s with edges := s.edges.filter (fun e => !(e.2 == u)) }, [])
    | .delEdgesSrcOrTgt, [u, v] =>
      some ({ s with edges := s.edges.filter (fun e => !(e.1 == u || e.2 == v)) }, [])
    | .delEdgesPair, [u, v] =>
      some ({ s with edges := s.edges.filter (fun e => !(e.1 == u && e.2 == v)) }, [])
    | .delNode, [u] =>
      some ({ s with nodes := s.nodes.filter (fun r => !(r.1 == u)) }, [])
    | .selNEdges, [] => some (s, [[.intv (s.edges.length : Int)]])
    | _, _ => none

/-- Execute a write statement, keeping only the state. -/
def execW (st : SQL) (args : List Val) (s : GState) : Option GState :=
  (runSQL st args s).map (·.1)

/-! ## Graph operations

Each public `Graph` method, as the sequence of statements it submits
(the trailing `commit()` calls are synchronization barriers with no state
effect, since the worker connection runs with `isolation_level=None`). -/

/-- Attribute mappings as passed to `add_node(key, **attributes)`. -/
abbrev Attrs := List (List Nat × Value)

/-- Model of `Graph.add_node`: `INSERT OR IGNORE` of the bare key when the mapping
is empty, else `REPLACE` of `(key, encode(attributes))`. -/
def add_node (k : Val) (attrs : Attrs) (s : GState) : Option GState :=
  if List.length attrs = 0 then execW .insNodeIgnore [k] s
  else execW .replaceNodeAttrs [k, .blob (encode (Value.dict attrs))] s

/-- Model of `Graph.add_nodes_from`: one `REPLACE INTO "nodes" (key) VALUES (?)`
per key, in order. -/
def add_nodes_from (keys : List Val) (s : GState) : Option GState :=
  keys.foldlM (fun st k => execW .replaceNodeKeyOnly [k] st) s

/-- Model of `Graph.remove_node`: delete all edges touching `u`, then the node row. -/
def remove_node (u : Val) (s : GState) : Option GState :=
  (execW .delEdgesSrcOrTgt [u, u] s).bind (execW .delNode [u])

/-- Model of `Graph.add_edge`: insert-if-absent of both endpoint keys, then of the
edge pair. -/
def add_edge (a b : Val) (s : GState) : Option GState :=
  (execW .insNodesPair [a, b] s).bind (execW .insEdge [a, b])

/-- Model of `Graph.add_edges_from`: no-op on empty input, else one batched
insert-if-absent of all distinct endpoint keys, then one batched
insert-if-absent of all the pairs. -/
def add_edges_from (es : List (Val × Val)) (s : GState) : Option GState :=
  if es.length = 0 then some s
  else
    let flat := es.flatMap (fun e => [e.1, e.2])
    let ns := flat.dedup
    (execW (.insNodesBatch ns.length) ns s).bind
      (execW (.insEdgesBatch es.length) flat)

/-- Model of `Graph.remove_edge`: delete the matching ordered pair. -/
def remove_edge (u v : Val) (s : GState) : Option GState :=
  execW .delEdgesPair [u, v] s

/-- Model of `Graph.set_neighbors`: delete all out-edges of `u`, then bulk-insert
`(u, t)` for each target. -/
def set_neighbors (u : Val) (nbrs : List Val) (s : GState) : Option GState :=
  (execW .delEdgesBySource [u] s).bind
    (add_edges_from (nbrs.map (fun t => (u, t))))

/-- Model of `Graph.set_predecessors`: the source passes the argument tuple
`(u, 2)` — two bind values — to the one-placeholder statement
`DELETE FROM "edges" WHERE target = ?`, then bulk-inserts `(t, u)` for
each source. -/
def set_predecessors (u : Val) (preds : List Val) (s : GState) : Option GState :=
  (execW .delEdgesByTarget [u, .intv 2] s).bind
    (add_edges_from (preds.map (fun t => (t, u))))

/-- Model of `Graph.clear`: delete all nodes and all edges. -/
def clear (_ : GState) : Option GState :=
  some ⟨[], []⟩

/-! ## Read queries -/

/-- Model of `Graph.n_nodes` (the `count_nodes` view). -/
def n_nodes (s : GState) : Nat := s.nodes.length

/-- Model of `Graph.n_edges` (the `count_edges` view). -/
def n_edges (s : GState) : Nat := s.edges.length

/-- Model of `Graph.has_node`: whether a `nodes` row with this key exists. -/
def has_node (s : GState) (k : Val) : Bool :=
  (s.nodes.find? (fun r => r.1 == k)).isSome

/-- Model of `Graph.has_edge`: whether `COUNT()` of matching edge rows equals 1. -/
def has_edge (s : GState) (u v : Val) : Bool :=
  s.edges.count (u, v) == 1

/-- Errors a `Graph` read can raise: `KeyError` on a missing node
(`NotFound`), or a failure while decoding an attribute payload. -/
inductive GErr where
  | notFound
  | codec
deriving DecidableEq, Repr

/-- Result of `Graph.node`: the bare key when the attributes column is
NULL, else the key with the decoded attribute value. -/
inductive NodeRes where
  | bare (k : Val)
  | full (k : Val) (attrs : Value)

/-- Model of `Graph.node`: fetch the row for `key`; `KeyError` when absent; bare
key on a NULL payload; otherwise decode the payload. -/
def node (s : GState) (k : Val) : Except GErr NodeRes :=
  match s.nodes.find? (fun r => r.1 == k) with
  | none => .error .notFound
  | some (key, none) => .ok (.bare key)
  | some (key, some (.blob b)) =>
    match decode b with
    | some v => .ok (.full key v)
    | none => .error .codec
  | some (_, some _) => .error .codec

/-- Model of `Graph.subgraph`: edges whose source and target are both in the set. -/
def subgraph (s : GState) (ns : List Val) : List (Val × Val) :=
  s.edges.filter (fun e => ns.contains e.1 && ns.contains e.2)

/-- One item produced by the `Graph.nodes` iteration. -/
inductive Yld where
  | bareKey (k : Val)
  | fullNode (k : Val) (v : Value)

/-- What the body of the `Graph.nodes` loop produces for one row,
translated as written: when the attributes column is NULL it first yields
the bare key and then still falls through to build
`Node(key, decode(None))`, whose `bytes(None)` raises; the `Bool` records
whether the row raised. -/
def rowYields : Val × Option Val → List Yld × Bool
  | (k, none) => ([.bareKey k], true)
  | (k, some (.blob b)) =>
    match decode b with
    | some v => ([.fullNode k v], false)
    | none => ([], true)
  | (_, some _) => ([], true)

/-- The `Graph.nodes` generator over a list of rows: yields row by row and
stops (with the error flag set) at the first row whose body raises. -/
def nodesIterRows : List (Val × Option Val) → List Yld × Bool
  | [] => ([], false)
  | r :: rest =>
    let y := rowYields r
    if y.2 then (y.1, true)
    else
      let z := nodesIterRows rest
      (y.1 ++ z.1, z.2)

/-- The `Graph.nodes` property: iterate all `nodes` rows in rowid order. -/
def nodesIter (s : GState) : List Yld × Bool :=
  nodesIterRows s.nodes

/-! ## Reachable store states

States produced from a fresh store by the public mutating operations
(each step requires the operation to have executed without a backend
error). -/

inductive Reach : GState → Prop where
  | init : Reach emptyState
  | add_node_step {s s' k a} : Reach s → add_node k a s = some s' → Reach s'
  | add_nodes_from_step {s s' ks} : Reach s → add_nodes_from ks s = some s' → Reach s'
  | remove_node_step {s s' u} : Reach s → remove_node u s = some s' → Reach s'
  | add_edge_step {s s' a b} : Reach s → add_edge a b s = some s' → Reach s'
  | add_edges_from_step {s s' es} : Reach s → add_edges_from es s = some s' → Reach s'
  | remove_edge_step {s s' u v} : Reach s → remove_edge u v s = some s' → Reach s'
  | set_neighbors_step {s s' u ns} : Reach s → set_neighbors u ns s = some s' → Reach s'
  | set_predecessors_step {s s' u ps} : Reach s → set_predecessors u ps s = some s' → Reach s'
  | clear_step {s s'} : Reach s → clear s = some s' → Reach s'

/-! ## The worker loop (`GraphMultithread.run`)

Commands as they sit in the shared FIFO queue `self.reqs`: a statement
with its argument tuple (and whether a caller holds a result channel for
it), a `COMMIT` barrier, or `CLOSE`. -/

inductive QCmd where
  | sql (st : SQL) (args : List Val) (wantsRes : Bool) : QCmd
  | commitQ : QCmd
  | closeQ : QCmd
deriving DecidableEq, Repr

/-- Observable effects of the worker: a `COMMIT` acknowledged on its
caller's channel, result rows (then the end marker) delivered to a read's
channel, or the worker thread dying on an uncaught `cursor.execute`
exception. -/
inductive QEvent where
  | commitAck : QEvent
  | results (rows : List (List Val)) : QEvent
  | workerDied : QEvent
deriving DecidableEq, Repr

/-- The worker loop, translated from `GraphMultithread.run`: dequeue in
FIFO order; `COMMIT` commits and acknowledges; `CLOSE` breaks the loop;
anything else is passed to `cursor.execute` — which has no surrounding
`try`, so a failing statement raises out of `run` and the thread
terminates: no later command is processed, nothing more is delivered. -/
def runWorker (s : GState) : List QCmd → GState × List QEvent
  | [] => (s, [])
  | .closeQ :: _ => (s, [])
  | .commitQ :: rest =>
    let w := runWorker s rest
    (w.1, .commitAck :: w.2)
  | .sql st args wantsRes :: rest =>
    match runSQL st args s with
    | none => (s, [.workerDied])
    | some (s2, rows) =>
      let w := runWorker s2 rest
      (w.1, (if wantsRes then [.results rows] else []) ++ w.2)

/-- The pure state effect of a queue command (used to reason about runs
in which every statement succeeds). -/
def stepCmd (s : GState) : QCmd → Option GState
  | .sql st args _ => execW st args s
  | .commitQ => some s
  | .closeQ => some s

/-- Fold the state effect over a command list. -/
def foldCmds (s : GState) : List QCmd → Option GState
  | [] => some s
  | c :: cs =>
    match stepCmd s c with
    | none => none
    | some s2 => foldCmds s2 cs

/-- The three commands one caller thread's `add_edge(a, b)` submits:
the endpoint insert, the edge insert, and the commit barrier. -/
def threadCmds (e : Val × Val) : List QCmd :=
  [.sql .insNodesPair [e.1, e.2] false,
   .sql .insEdge [e.1, e.2] false,
   .commitQ]

/-- The edge pairs inserted by the edge-insert statements of a command
list. -/
def pairsOf (cmds : List QCmd) : List (Val × Val) :=
  cmds.filterMap (fun c =>
    match c with
    | .sql .insEdge [a, b] _ => some (a, b)
    | _ => none)

/-! ## Helper lemmas: the nodes table -/

theorem find?_filter_ne_append (l : List (Val × Option Val)) (k : Val) (x : Option Val) :
    ((l.filter (fun r => !(r.1 == k))) ++ [(k, x)]).find? (fun r => r.1 == k) = some (k, x) := by
  induction l with
  | nil => simp
  | cons a t ih =>
    rw [List.filter_cons]
    by_cases h : a.1 = k
    · rw [if_neg (by simp [h])]
      exact ih
    · rw [if_pos (by simp [h]), List.cons_append, List.find?_cons_of_neg _ (by simp [h])]
      exact ih

theorem find?_filter_other (l : List (Val × Option Val)) (k k' : Val) (h : k ≠ k') :
    (l.filter (fun r => !(r.1 == k'))).find? (fun r => r.1 == k) =
      l.find? (fun r => r.1 == k) := by
  induction l with
  | nil => simp
  | cons a t ih =>
    rw [List.filter_cons]
    by_cases ha' : a.1 = k'
    · have hak : ¬(a.1 = k) := by rw [ha']; exact fun hh => h hh.symm
      rw [if_neg (by simp [ha']), List.find?_cons_of_neg _ (by simp [hak])]
      exact ih
    · rw [if_pos (by simp [ha'])]
      by_cases hak : a.1 = k
      · rw [List.find?_cons_of_pos _ (by simp [hak]), List.find?_cons_of_pos _ (by simp [hak])]
      · rw [List.find?_cons_of_neg _ (by simp [hak]), List.find?_cons_of_neg _ (by simp [hak])]
        exact ih

theorem find?_append_of_some (l1 l2 : List (Val × Option Val)) (p : Val × Option Val → Bool)
    (x : Val × Option Val) (h : l1.find? p = some x) : (l1 ++ l2).find? p = some x := by
  induction l1 with
  | nil => simp [List.find?] at h
  | cons a t ih =>
    by_cases ha : p a
    · rw [List.find?_cons_of_pos _ ha] at h
      simpa [List.find?_cons_of_pos _ ha] using h
    · rw [List.find?_cons_of_neg _ (by simpa using ha)] at h
      simpa [List.find?_cons_of_neg _ (by simpa using ha)] using ih h

theorem insKey_of_has_node (s : GState) (k : Val) (h : has_node s k = true) :
    insKey s k = s := by
  rw [insKey, if_pos]
  rw [List.any_eq_true]
  rw [has_node, Option.isSome_iff_exists] at h
  obtain ⟨x, hx⟩ := h
  exact ⟨x, List.mem_of_find?_eq_some hx, by simpa using List.find?_some hx⟩

/-! ## Helper lemmas: per-operation behaviour -/

theorem execW_replaceKeyOnly (k : Val) (s : GState) :
    execW .replaceNodeKeyOnly [k] s = some (replaceRow s k none) := by
  simp [execW, runSQL, arity]

theorem add_nodes_from_eq (keys : List Val) :
    ∀ s : GState, add_nodes_from keys s =
      some (keys.foldl (fun st k => replaceRow st k none) s) := by
  induction keys with
  | nil => intro s; rfl
  | cons k t ih =>
    intro s
    rw [add_nodes_from, List.foldlM_cons, execW_replaceKeyOnly]
    simpa [add_nodes_from] using ih (replaceRow s k none)

theorem remove_node_eq (u : Val) (s : GState) :
    remove_node u s = some ⟨s.nodes.filter (fun r => !(r.1 == u)),
                            s.edges.filter (fun e => !(e.1 == u || e.2 == u))⟩ := by
  simp [remove_node, execW, runSQL, arity]

theorem set_predecessors_none (u : Val) (preds : List Val) (s : GState) :
    set_predecessors u preds s = none := by
  simp [set_predecessors, execW, runSQL, arity]

/-! ## The claims -/

/-- Claim C1 (code bug): in `GraphMultithread.run` a failing
fire-and-forget write — here the miscounted bind tuple that
`set_predecessors` enqueues — is not caught: the uncaught exception
terminates the worker loop, every subsequently queued command (including
any `COMMIT`) is never processed, no acknowledgement is ever delivered,
and the failure is not surfaced to any later `commit()` caller. -/
theorem worker_dies_on_failing_write (s : GState) (rest : List QCmd) :
    runWorker s (.sql .delEdgesByTarget [.text "u", .intv 2] false :: rest) =
      (s, [.workerDied]) := by
  simp [runWorker, runSQL, arity]

/-- Claim C2 (code bug): in the `Graph.nodes` iteration the
attribute-less branch falls through — after yielding the bare key for a
node stored with a NULL payload, the loop body still builds
`Node(key, decode(None))`, which raises; the iteration aborts (error flag
`true`) and the following node is never yielded, instead of yielding the
bare key once and continuing. -/
theorem nodes_iteration_raises_on_null_attrs :
    nodesIter ⟨[(.text "a", none),
                (.text "b", some (.blob (encode (Value.dict [([120], .num 1)]))))], []⟩ =
      ([.bareKey (.text "a")], true) := rfl

/-- Claim C3 (code bug): `Graph.set_predecessors` binds the tuple
`(u, 2)` — two values — to the one-placeholder statement
`DELETE FROM "edges" WHERE target = ?`, so the statement always fails
with a bind-count error and the operation never reaches the delete or the
subsequent inserts, for every input. -/
theorem set_predecessors_always_fails (u : Val) (preds : List Val) (s : GState) :
    set_predecessors u preds s = none :=
  set_predecessors_none u preds s

/-- Claim C4: `add_node` with an empty mapping on an existing key is an
insert-if-absent no-op (attributes and insertion position untouched);
with a non-empty mapping it is a full `REPLACE`: afterwards the node
decodes to exactly the new mapping and its row sits at the most recent
insertion position. -/
theorem add_node_empty_vs_replace (s : GState) (k : Val) (B : Attrs) :
    (has_node s k = true → add_node k [] s = some s) ∧
    (B ≠ [] → ∃ s', add_node k B s = some s' ∧
      node s' k = .ok (.full k (Value.dict B)) ∧
      s'.nodes.getLast? = some (k, some (.blob (encode (Value.dict B))))) := by
  constructor
  · intro h
    simp [add_node, execW, runSQL, arity, insKey_of_has_node s k h]
  · intro hB
    have hlen : ¬(List.length B = 0) := fun h0 => hB (List.length_eq_zero.mp h0)
    refine ⟨replaceRow s k (some (.blob (encode (Value.dict B)))), ?_, ?_, ?_⟩
    · simp [add_node, if_neg hlen, execW, runSQL, arity]
    · have hf : (replaceRow s k (some (.blob (encode (Value.dict B))))).nodes.find?
          (fun r => r.1 == k) = some (k, some (.blob (encode (Value.dict B)))) :=
        find?_filter_ne_append s.nodes k _
      rw [node, hf]
      have hd : decode (encode (Value.dict B)) = some (Value.dict B) := loads_dumps _
      simp [hd]
    · exact List.getLast?_concat _

/-- Witness for C4 on a one-node store holding `{a: 1}`. -/
def demoC4 : GState :=
  ⟨[(.text "k", some (.blob (encode (Value.dict [([97], .num 1)]))))], []⟩

theorem add_node_empty_vs_replace_witness :
    (add_node (.text "k") [] demoC4 = some demoC4) ∧
    (∃ s', add_node (.text "k") [([98], .num 2)] demoC4 = some s' ∧
      node s' (.text "k") = .ok (.full (.text "k") (Value.dict [([98], .num 2)])) ∧
      s'.nodes.getLast? = some (.text "k", some (.blob (encode (Value.dict [([98], .num 2)]))))) :=
  ⟨(add_node_empty_vs_replace demoC4 (.text "k") [([98], .num 2)]).1 (by decide),
   (add_node_empty_vs_replace demoC4 (.text "k") [([98], .num 2)]).2 (by simp)⟩

/-- Claim C6: `remove_node(u)` deletes every edge whose source or target
is `u` and then the node row itself, so for any key set containing `u`
the induced subgraph afterwards has no edge mentioning `u`. -/
theorem remove_node_cascades (s : GState) (u : Val) (S : List Val) (_hS : u ∈ S) :
    ∃ s', remove_node u s = some s' ∧
      (∀ e ∈ s'.edges, e.1 ≠ u ∧ e.2 ≠ u) ∧
      has_node s' u = false ∧
      (∀ e ∈ subgraph s' S, e.1 ≠ u ∧ e.2 ≠ u) := by
  have hedges : ∀ e ∈ s.edges.filter (fun e => !(e.1 == u || e.2 == u)),
      e.1 ≠ u ∧ e.2 ≠ u := by
    intro e he
    have hp := List.of_mem_filter he
    simp only [Bool.not_eq_eq_eq_not, Bool.not_true, Bool.or_eq_false_iff] at hp
    exact ⟨by simpa using hp.1, by simpa using hp.2⟩
  refine ⟨_, remove_node_eq u s, hedges, ?_, fun e he => hedges e (List.mem_of_mem_filter he)⟩
  rw [has_node, List.find?_eq_none.mpr]
  · rfl
  · intro r hr
    have hp := List.of_mem_filter hr
    simpa using hp

/-- Witness for C6 on a two-node store with edges touching `u`. -/
theorem remove_node_cascades_witness :
    ∃ s', remove_node (.text "u")
        ⟨[(.text "u", none), (.text "v", none)],
         [(.text "u", .text "v"), (.text "v", .text "u"), (.text "v", .text "v")]⟩ = some s' ∧
      (∀ e ∈ s'.edges, e.1 ≠ .text "u" ∧ e.2 ≠ .text "u") ∧
      has_node s' (.text "u") = false ∧
      (∀ e ∈ subgraph s' [.text "u", .text "v"], e.1 ≠ .text "u" ∧ e.2 ≠ .text "u") :=
  remove_node_cascades _ _ [.text "u", .text "v"] (by decide)

/-- Claim C7: a key with no row gives `has_node = false` and a `NotFound`
failure from `node`; a row with a NULL payload gives the bare key; a row
holding an encoded mapping gives the key with the decoded mapping. -/
theorem node_lookup_semantics (s : GState) (k : Val) (v : Value) :
    (s.nodes.find? (fun r => r.1 == k) = none →
      has_node s k = false ∧ node s k = .error .notFound) ∧
    (s.nodes.find? (fun r => r.1 == k) = some (k, none) →
      has_node s k = true ∧ node s k = .ok (.bare k)) ∧
    (s.nodes.find? (fun r => r.1 == k) = some (k, some (.blob (encode v))) →
      has_node s k = true ∧ node s k = .ok (.full k v)) := by
  refine ⟨?_, ?_, ?_⟩
  · intro h
    exact ⟨by simp [has_node, h], by simp [node, h]⟩
  · intro h
    exact ⟨by simp [has_node, h], by simp [node, h]⟩
  · intro h
    refine ⟨by simp [has_node, h], ?_⟩
    rw [node, h]
    have hd : decode (encode v) = some v := loads_dumps v
    simp [hd]

/-- Witness store for C7: one bare node and one node with attributes. -/
def demoC7 : GState :=
  ⟨[(.text "a", none), (.text "b", some (.blob (encode (Value.num 5))))], []⟩

theorem node_lookup_semantics_witness :
    (has_node demoC7 (.text "z") = false ∧ node demoC7 (.text "z") = .error .notFound) ∧
    (has_node demoC7 (.text "a") = true ∧ node demoC7 (.text "a") = .ok (.bare (.text "a"))) ∧
    (has_node demoC7 (.text "b") = true ∧
      node demoC7 (.text "b") = .ok (.full (.text "b") (Value.num 5))) :=
  ⟨(node_lookup_semantics demoC7 (.text "z") (Value.num 5)).1 (by decide),
   (node_lookup_semantics demoC7 (.text "a") (Value.num 5)).2.1 (by decide),
   (node_lookup_semantics demoC7 (.text "b") (Value.num 5)).2.2 (by decide)⟩

/-- Claim C8: the attribute codec round-trips every attribute mapping
built from nested primitive values, and the compressed variant
round-trips identically to the uncompressed one. -/
theorem codec_round_trip (m : List (List Nat × Value)) :
    decode (encode (Value.dict m)) = some (Value.dict m) ∧
    zip_decode (zip_encode (Value.dict m)) = some (Value.dict m) ∧
    zip_decode (zip_encode (Value.dict m)) = decode (encode (Value.dict m)) := by
  have h1 : decode (encode (Value.dict m)) = some (Value.dict m) := loads_dumps _
  have h2 : zip_decode (zip_encode (Value.dict m)) = some (Value.dict m) := by
    rw [zip_decode, zip_encode, decompress_compress]
    exact loads_dumps _
  exact ⟨h1, h2, h2.trans h1.symm⟩

/-! ## Helper lemmas for C5: edge uniqueness across reachable states -/

theorem insKey_edges (s : GState) (k : Val) : (insKey s k).edges = s.edges := by
  rw [insKey]
  split <;> rfl

theorem foldl_insKey_edges (ks : List Val) : ∀ s : GState, (ks.foldl insKey s).edges = s.edges := by
  induction ks with
  | nil => intro s; rfl
  | cons k t ih => intro s; rw [List.foldl_cons, ih, insKey_edges]

theorem insEdgeV_edges_nodup (s : GState) (p : Val × Val) (h : s.edges.Nodup) :
    (insEdgeV s p).edges.Nodup := by
  by_cases hc : s.edges.contains p
  · rw [insEdgeV, if_pos hc]
    exact h
  · rw [insEdgeV, if_neg hc]
    have hnm : p ∉ s.edges := fun hm => hc (List.elem_iff.mpr hm)
    simp [List.nodup_append, h, hnm]

theorem insEdgeV_mem (s : GState) (p q : Val × Val) :
    q ∈ (insEdgeV s p).edges ↔ q ∈ s.edges ∨ q = p := by
  by_cases hc : s.edges.contains p
  · rw [insEdgeV, if_pos hc]
    have hp : p ∈ s.edges := List.elem_iff.mp hc
    constructor
    · exact Or.inl
    · rintro (h | rfl)
      · exact h
      · exact hp
  · rw [insEdgeV, if_neg hc]
    simp

theorem foldl_insEdgeV_nodup (ps : List (Val × Val)) :
    ∀ s : GState, s.edges.Nodup → (ps.foldl insEdgeV s).edges.Nodup := by
  induction ps with
  | nil => intro s h; exact h
  | cons p t ih =>
    intro s h
    rw [List.foldl_cons]
    exact ih _ (insEdgeV_edges_nodup s p h)

theorem length_flatMap_pair (es : List (Val × Val)) :
    (es.flatMap (fun e => [e.1, e.2])).length = 2 * es.length := by
  induction es with
  | nil => rfl
  | cons e t ih =>
    rw [List.flatMap_cons, List.length_append, ih]
    simp
    omega

theorem add_edges_from_nodup (es : List (Val × Val)) (s s' : GState)
    (hrun : add_edges_from es s = some s') (h : s.edges.Nodup) : s'.edges.Nodup := by
  rw [add_edges_from] at hrun
  by_cases hlen : es.length = 0
  · rw [if_pos hlen] at hrun
    cases hrun
    exact h
  · rw [if_neg hlen] at hrun
    simp only [execW, runSQL, arity, length_flatMap_pair] at hrun
    simp at hrun
    cases hrun
    apply foldl_insEdgeV_nodup
    rw [foldl_insKey_edges]
    exact h

theorem foldl_replaceRow_edges (ks : List Val) :
    ∀ s : GState, ((ks.foldl (fun st k => replaceRow st k none) s)).edges = s.edges := by
  induction ks with
  | nil => intro s; rfl
  | cons k t ih => intro s; rw [List.foldl_cons, ih]; rfl

theorem add_node_edges (k : Val) (a : Attrs) (s s' : GState)
    (hrun : add_node k a s = some s') : s'.edges = s.edges := by
  rw [add_node] at hrun
  by_cases hlen : List.length a = 0
  · rw [if_pos hlen] at hrun
    simp [execW, runSQL, arity] at hrun
    rw [← hrun, insKey_edges]
  · rw [if_neg hlen] at hrun
    simp [execW, runSQL, arity] at hrun
    rw [← hrun]
    rfl

theorem add_nodes_from_edges (ks : List Val) (s s' : GState)
    (hrun : add_nodes_from ks s = some s') : s'.edges = s.edges := by
  rw [add_nodes_from_eq] at hrun
  cases hrun
  exact foldl_replaceRow_edges ks s

theorem add_edge_eq (a b : Val) (s : GState) :
    add_edge a b s = some (insEdgeV (insKey (insKey s a) b) (a, b)) := by
  simp [add_edge, execW, runSQL, arity]

theorem remove_edge_eq (u v : Val) (s : GState) :
    remove_edge u v s =
      some ⟨s.nodes, s.edges.filter (fun e => !(e.1 == u && e.2 == v))⟩ := by
  simp [remove_edge, execW, runSQL, arity]

theorem set_neighbors_nodup (u : Val) (ns : List Val) (s s' : GState)
    (hrun : set_neighbors u ns s = some s') (h : s.edges.Nodup) : s'.edges.Nodup := by
  rw [set_neighbors] at hrun
  have hd : execW .delEdgesBySource [u] s =
      some ⟨s.nodes, s.edges.filter (fun e => !(e.1 == u))⟩ := by
    simp [execW, runSQL, arity]
  rw [hd] at hrun
  simp only [Option.some_bind] at hrun
  exact add_edges_from_nodup _ _ _ hrun (List.Nodup.filter _ h)

theorem reach_edges_nodup (s : GState) (h : Reach s) : s.edges.Nodup := by
  induction h with
  | init => simp [emptyState]
  | add_node_step _ hop ih =>
    rw [add_node_edges _ _ _ _ hop]
    exact ih
  | add_nodes_from_step _ hop ih =>
    rw [add_nodes_from_edges _ _ _ hop]
    exact ih
  | remove_node_step _ hop ih =>
    rw [remove_node_eq] at hop
    cases hop
    exact List.Nodup.filter _ ih
  | add_edge_step _ hop ih =>
    rw [add_edge_eq] at hop
    cases hop
    apply insEdgeV_edges_nodup
    rw [insKey_edges, insKey_edges]
    exact ih
  | add_edges_from_step _ hop ih =>
    exact add_edges_from_nodup _ _ _ hop ih
  | remove_edge_step _ hop ih =>
    rw [remove_edge_eq] at hop
    cases hop
    exact List.Nodup.filter _ ih
  | set_neighbors_step _ hop ih =>
    exact set_neighbors_nodup _ _ _ _ hop ih
  | set_predecessors_step _ hop _ =>
    rw [set_predecessors_none] at hop
    cases hop
  | clear_step _ hop _ =>
    rw [clear] at hop
    cases hop
    simp

/-- Claim C5: in every reachable store state each ordered pair appears at
most once in the edge table, and re-inserting an existing edge via
`add_edge` is a silent no-op on the edge set: `n_edges` is unchanged and
`has_edge` stays true. -/
theorem edge_uniqueness_and_duplicate_noop (s : GState) (h : Reach s) :
    s.edges.Nodup ∧
    ∀ a b, has_edge s a b = true →
      ∃ s', add_edge a b s = some s' ∧
        n_edges s' = n_edges s ∧ has_edge s' a b = true := by
  refine ⟨reach_edges_nodup s h, ?_⟩
  intro a b hab
  have hmem : (a, b) ∈ s.edges := by
    rw [has_edge] at hab
    have hc : s.edges.count (a, b) = 1 := by simpa using hab
    exact List.count_pos_iff.mp (by omega)
  have hcont : (insKey (insKey s a) b).edges.contains (a, b) = true := by
    rw [insKey_edges, insKey_edges]
    exact List.elem_iff.mpr hmem
  have hs' : insEdgeV (insKey (insKey s a) b) (a, b) = insKey (insKey s a) b := by
    rw [insEdgeV, if_pos hcont]
  refine ⟨_, add_edge_eq a b s, ?_, ?_⟩
  · rw [hs', n_edges, n_edges, insKey_edges, insKey_edges]
  · rw [hs', has_edge, insKey_edges, insKey_edges]
    exact hab

/-- Witness state for C5: the store reached by `add_edge("a","b")`. -/
def demoC5 : GState :=
  ⟨[(.text "a", none), (.text "b", none)], [(.text "a", .text "b")]⟩

theorem edge_uniqueness_and_duplicate_noop_witness :
    demoC5.edges.Nodup ∧
    ∀ a b, has_edge demoC5 a b = true →
      ∃ s', add_edge a b demoC5 = some s' ∧
        n_edges s' = n_edges demoC5 ∧ has_edge s' a b = true :=
  edge_uniqueness_and_duplicate_noop demoC5
    (@Reach.add_edge_step emptyState demoC5 (.text "a") (.text "b") Reach.init (by decide))

/-! ## Helper lemmas for C10: `REPLACE INTO "nodes" (key)` folds -/

theorem replaceRow_find_self (s : GState) (k : Val) (x : Option Val) :
    (replaceRow s k x).nodes.find? (fun r => r.1 == k) = some (k, x) :=
  find?_filter_ne_append s.nodes k x

theorem replaceRow_find_preserve (s : GState) (k k2 : Val)
    (h : s.nodes.find? (fun r => r.1 == k) = some (k, none)) :
    (replaceRow s k2 none).nodes.find? (fun r => r.1 == k) = some (k, none) := by
  by_cases hk : k = k2
  · subst hk
    exact replaceRow_find_self s k none
  · show (s.nodes.filter (fun r => !(r.1 == k2)) ++ ([(k2, none)] : List (Val × Option Val))).find?
      (fun r => r.1 == k) = some (k, none)
    apply find?_append_of_some
    rw [find?_filter_other _ _ _ hk]
    exact h

theorem foldl_replace_find (keys : List Val) (k : Val) :
    ∀ s : GState,
      (k ∈ keys ∨ s.nodes.find? (fun r => r.1 == k) = some (k, none)) →
      ((keys.foldl (fun st k2 => replaceRow st k2 none) s).nodes.find?
        (fun r => r.1 == k)) = some (k, none) := by
  induction keys with
  | nil =>
    intro s h
    rcases h with h | h
    · simp at h
    · simpa using h
  | cons k2 t ih =>
    intro s h
    rw [List.foldl_cons]
    apply ih
    rcases h with h | h
    · rcases List.mem_cons.mp h with h1 | h1
      · subst h1
        exact Or.inr (replaceRow_find_self s k none)
      · exact Or.inl h1
    · exact Or.inr (replaceRow_find_preserve s k k2 h)

/-- Claim C10: `add_nodes_from` issues `REPLACE INTO "nodes" (key)` per
key, so a key that already holds attributes gets its row replaced by one
with a NULL payload at the most recent insertion position — unlike
`add_node` with an empty mapping, which leaves the store untouched. -/
theorem add_nodes_from_clobbers_attrs (s : GState) (k : Val) (b : Val) (keys : List Val)
    (hk : (k, some b) ∈ s.nodes) (hmem : k ∈ keys) :
    (∃ s', add_nodes_from keys s = some s' ∧
      s'.nodes.find? (fun r => r.1 == k) = some (k, none)) ∧
    (∃ s2, add_nodes_from [k] s = some s2 ∧ s2.nodes.getLast? = some (k, none)) ∧
    add_node k [] s = some s := by
  refine ⟨?_, ?_, ?_⟩
  · exact ⟨_, add_nodes_from_eq keys s, foldl_replace_find keys k s (Or.inl hmem)⟩
  · refine ⟨_, add_nodes_from_eq [k] s, ?_⟩
    show ((replaceRow s k none).nodes).getLast? = some (k, none)
    exact List.getLast?_concat _
  · have hhas : has_node s k = true := by
      rw [has_node]
      exact List.find?_isSome.mpr ⟨(k, some b), hk, by simp⟩
    simp [add_node, execW, runSQL, arity, insKey_of_has_node s k hhas]

/-- Witness store for C10: key `k` holds an attribute payload. -/
def demoC10 : GState :=
  ⟨[(.text "k", some (.blob (encode (Value.num 7)))), (.text "j", none)], []⟩

theorem add_nodes_from_clobbers_attrs_witness :
    (∃ s', add_nodes_from [.text "j", .text "k"] demoC10 = some s' ∧
      s'.nodes.find? (fun r => r.1 == .text "k") = some (.text "k", none)) ∧
    (∃ s2, add_nodes_from [.text "k"] demoC10 = some s2 ∧
      s2.nodes.getLast? = some (.text "k", none)) ∧
    add_node (.text "k") [] demoC10 = some demoC10 :=
  add_nodes_from_clobbers_attrs demoC10 (.text "k") (.blob (encode (Value.num 7)))
    [.text "j", .text "k"] (by decide) (by decide)

/-! ## Helper lemmas for C9: the FIFO worker loses no writes -/

/-- The shapes of commands that `add_edge` callers enqueue. -/
def InsCmd (c : QCmd) : Prop :=
  (∃ a b, c = .sql .insNodesPair [a, b] false) ∨
  (∃ a b, c = .sql .insEdge [a, b] false) ∨
  c = .commitQ

theorem stepCmd_insNodesPair (s : GState) (a b : Val) :
    stepCmd s (.sql .insNodesPair [a, b] false) = some (insKey (insKey s a) b) := by
  simp [stepCmd, execW, runSQL, arity]

theorem stepCmd_insEdge (s : GState) (a b : Val) :
    stepCmd s (.sql .insEdge [a, b] false) = some (insEdgeV s (a, b)) := by
  simp [stepCmd, execW, runSQL, arity]

theorem foldCmds_inserts (cmds : List QCmd) :
    ∀ s : GState, (∀ c ∈ cmds, InsCmd c) → s.edges.Nodup →
      ∃ s', foldCmds s cmds = some s' ∧ s'.edges.Nodup ∧
        (∀ p, p ∈ s'.edges ↔ p ∈ s.edges ∨ p ∈ pairsOf cmds) := by
  induction cmds with
  | nil =>
    intro s _ hn
    exact ⟨s, rfl, hn, by simp [pairsOf]⟩
  | cons c t ih =>
    intro s hall hn
    have hc := hall c (List.mem_cons_self c t)
    have hallt : ∀ c2 ∈ t, InsCmd c2 := fun c2 h2 => hall c2 (List.mem_cons_of_mem c h2)
    rcases hc with ⟨a, b, rfl⟩ | ⟨a, b, rfl⟩ | rfl
    · obtain ⟨s', h1, h2, h3⟩ := ih (insKey (insKey s a) b) hallt
        (by rw [insKey_edges, insKey_edges]; exact hn)
      refine ⟨s', ?_, h2, ?_⟩
      · simp only [foldCmds, stepCmd_insNodesPair]
        exact h1
      · intro p
        rw [h3 p, insKey_edges, insKey_edges]
        simp [pairsOf, List.filterMap_cons]
    · obtain ⟨s', h1, h2, h3⟩ := ih (insEdgeV s (a, b)) hallt (insEdgeV_edges_nodup s (a, b) hn)
      refine ⟨s', ?_, h2, ?_⟩
      · simp only [foldCmds, stepCmd_insEdge]
        exact h1
      · intro p
        rw [h3 p]
        simp only [insEdgeV_mem, pairsOf, List.filterMap_cons, List.mem_cons]
        tauto
    · obtain ⟨s', h1, h2, h3⟩ := ih s hallt hn
      refine ⟨s', ?_, h2, ?_⟩
      · simp only [foldCmds, stepCmd]
        exact h1
      · intro p
        rw [h3 p]
        simp [pairsOf, List.filterMap_cons]

theorem insCmd_of_mem_flatMap (es : List (Val × Val)) (c : QCmd)
    (h : c ∈ es.flatMap threadCmds) : InsCmd c := by
  rw [List.mem_flatMap] at h
  obtain ⟨e, _, hc⟩ := h
  rw [threadCmds] at hc
  simp at hc
  rcases hc with rfl | rfl | rfl
  · exact Or.inl ⟨e.1, e.2, rfl⟩
  · exact Or.inr (Or.inl ⟨e.1, e.2, rfl⟩)
  · exact Or.inr (Or.inr rfl)

theorem insCmd_ne_close (c : QCmd) (h : InsCmd c) : c ≠ .closeQ := by
  rcases h with ⟨a, b, rfl⟩ | ⟨a, b, rfl⟩ | rfl <;> simp

theorem pairsOf_threadCmds (es : List (Val × Val)) :
    pairsOf (es.flatMap threadCmds) = es := by
  induction es with
  | nil => rfl
  | cons e t ih =>
    rw [List.flatMap_cons]
    simp only [pairsOf, List.filterMap_append] at ih ⊢
    rw [ih]
    simp [threadCmds, List.filterMap_cons]

theorem length_eq_of_nodup_mem_iff (l1 l2 : List (Val × Val)) (h1 : l1.Nodup) (h2 : l2.Nodup)
    (h : ∀ p, p ∈ l1 ↔ p ∈ l2) : l1.length = l2.length := by
  have hf : l1.toFinset = l2.toFinset := by
    ext p
    simp only [List.mem_toFinset]
    exact h p
  have e1 := List.toFinset_card_of_nodup h1
  have e2 := List.toFinset_card_of_nodup h2
  rw [hf] at e1
  omega

theorem runWorker_append_ok (cmds : List QCmd) :
    ∀ (s s' : GState), foldCmds s cmds = some s' → (∀ c ∈ cmds, c ≠ .closeQ) →
      ∀ tail, runWorker s (cmds ++ tail) =
        ((runWorker s' tail).1, (runWorker s cmds).2 ++ (runWorker s' tail).2) := by
  induction cmds with
  | nil =>
    intro s s' hf _ tail
    cases hf
    simp [runWorker]
  | cons c t ih =>
    intro s s' hf hnc tail
    have hct : ∀ c2 ∈ t, c2 ≠ .closeQ := fun c2 h2 => hnc c2 (List.mem_cons_of_mem c h2)
    cases c with
    | closeQ => exact absurd rfl (hnc _ (List.mem_cons_self _ _))
    | commitQ =>
      simp only [foldCmds, stepCmd] at hf
      have hmain := ih s s' hf hct tail
      simp only [List.cons_append, List.append_eq, runWorker]
      rw [hmain]
    | sql st args w =>
      simp only [foldCmds, stepCmd, execW] at hf
      cases hrs : runSQL st args s with
      | none =>
        rw [hrs] at hf
        simp at hf
      | some pr =>
        obtain ⟨s2, rows⟩ := pr
        rw [hrs] at hf
        simp at hf
        have hmain := ih s2 s' hf hct tail
        simp only [List.cons_append, List.append_eq, runWorker, hrs]
        rw [hmain]
        simp [List.append_assoc]

theorem runWorker_commit_read (s : GState) :
    runWorker s [.commitQ, .sql .selNEdges [] true] =
      (s, [.commitAck, .results [[.intv (s.edges.length : Int)]]]) := by
  simp [runWorker, runSQL, arity]

/-- Claim C9: with the shared queue drained strictly in FIFO order, any
interleaving of N callers each enqueuing a distinct `add_edge` (endpoint
insert, edge insert, commit barrier), followed by a commit and the
`n_edges` read of any caller, leaves exactly N edges and answers the read
with N: every write that entered the queue before the read is visible to
it, and no write is lost. -/
theorem fifo_no_lost_writes (es : List (Val × Val)) (cmds : List QCmd)
    (hnd : es.Nodup) (hperm : cmds.Perm (es.flatMap threadCmds)) :
    ∃ sf evs,
      runWorker emptyState (cmds ++ [.commitQ, .sql .selNEdges [] true]) = (sf, evs) ∧
      n_edges sf = es.length ∧
      evs.getLast? = some (.results [[.intv (es.length : Int)]]) := by
  have hwf : ∀ c ∈ cmds, InsCmd c := fun c hc =>
    insCmd_of_mem_flatMap es c (hperm.subset hc)
  obtain ⟨sf, hfold, hnd', hmem⟩ := foldCmds_inserts cmds emptyState hwf (by simp [emptyState])
  have hnc : ∀ c ∈ cmds, c ≠ .closeQ := fun c hc => insCmd_ne_close c (hwf c hc)
  have hlen : sf.edges.length = es.length := by
    apply length_eq_of_nodup_mem_iff _ _ hnd' hnd
    intro p
    rw [hmem p]
    have hp : (pairsOf cmds).Perm es := by
      have hq : (pairsOf cmds).Perm (pairsOf (es.flatMap threadCmds)) :=
        List.Perm.filterMap _ hperm
      rwa [pairsOf_threadCmds] at hq
    simp only [emptyState, List.not_mem_nil, false_or]
    exact hp.mem_iff
  have hrun := runWorker_append_ok cmds emptyState sf hfold hnc
    [.commitQ, .sql .selNEdges [] true]
  rw [runWorker_commit_read] at hrun
  refine ⟨sf, (runWorker emptyState cmds).2 ++
      [.commitAck, .results [[.intv (sf.edges.length : Int)]]], hrun, ?_, ?_⟩
  · rw [n_edges, hlen]
  · rw [show (runWorker emptyState cmds).2 ++
        [QEvent.commitAck, QEvent.results [[.intv (sf.edges.length : Int)]]] =
        ((runWorker emptyState cmds).2 ++ [QEvent.commitAck]) ++
        [QEvent.results [[.intv (sf.edges.length : Int)]]] by simp]
    rw [List.getLast?_concat, hlen]

/-- Witness for C9: two threads, edges `(a,b)` and `(c,d)`, submitted in
program order. -/
theorem fifo_no_lost_writes_witness :
    ∃ sf evs,
      runWorker emptyState
        ((([(.text "a", .text "b"), (.text "c", .text "d")] : List (Val × Val)).flatMap
          threadCmds) ++ [.commitQ, .sql .selNEdges [] true]) = (sf, evs) ∧
      n_edges sf = ([(Val.text "a", Val.text "b"), (Val.text "c", Val.text "d")]).length ∧
      evs.getLast? = some (.results [[.intv
        ((([(Val.text "a", Val.text "b"), (Val.text "c", Val.text "d")]).length : Nat) : Int)]]) :=
  fifo_no_lost_writes [(.text "a", .text "b"), (.text "c", .text "d")] _
    (by decide) (List.Perm.refl _)

end Nodlite
